import Mathlib

/-!
Verification of the rfcparser repository (RFC 6265 Set-Cookie handling,
RFC 3986 URIs, cookie dates) against its natural-language specification.

Python strings are embedded as lists of characters (`Str`); Python
exceptions are embedded as the `PyErr` type, and every fallible Python
operation returns `Except PyErr`.  The authoritative sources are
src/rfcparser/object_abstractions.py and src/rfcparser/core.py; the lark
grammar files referenced by core.py are not part of the sources, so the
pieces of behaviour they decide (date tokenization, URI tokenization) are
modelled from the specification and are marked as such.
-/

deriving instance DecidableEq for Except

namespace RfcParser

/-- Python strings are modelled as lists of characters. -/
abbrev Str := List Char

/-- The Python exceptions that the embedded code can raise.
`parseException` and `validationException` are the typed errors of
rfcparser.exceptions; the rest are Python builtin exception classes. -/
inductive PyErr where
  | parseException
  | validationException
  | typeError
  | valueError
  | indexError
  | assertionError
deriving DecidableEq, Repr

/-- Characters removed by the Python str.strip() default whitespace set. -/
def isPySpace (c : Char) : Bool :=
  c = ' ' || c = '\t' || c = '\n' || c = '\r' || c = '\x0b' || c = '\x0c'

/-- Python str.strip(): remove leading and trailing whitespace. -/
def pyStrip (l : Str) : Str :=
  ((l.dropWhile isPySpace).reverse.dropWhile isPySpace).reverse

/-- Python s.startswith(pre). -/
def pyStartsWith : Str → Str → Bool
  | _, [] => true
  | [], _ :: _ => false
  | c :: cs, p :: ps => c = p && pyStartsWith cs ps

/-- Python s.endswith(suf). -/
def pyEndsWith (s suf : Str) : Bool :=
  pyStartsWith s.reverse suf.reverse

/-- Python s.split(sep) for a one-character separator: split on every
occurrence, keeping empty parts; the empty string splits to one empty part. -/
def splitChars (sep : Char) : Str → List Str
  | [] => [[]]
  | c :: rest =>
    if c = sep then [] :: splitChars sep rest
    else
      match splitChars sep rest with
      | [] => [[c]]
      | p :: ps => (c :: p) :: ps

/-- Split a list at the first character satisfying `p`: returns the prefix of
characters not satisfying `p` and the remainder (which is empty or starts
with a character satisfying `p`).  This models the Python idiom
s.find(c) combined with slicing. -/
def spanUntil (p : Char → Bool) : Str → Str × Str
  | [] => ([], [])
  | c :: rest =>
    if p c then ([], c :: rest)
    else
      let (a, b) := spanUntil p rest
      (c :: a, b)

/-- Python "".join for a list of strings. -/
def joinAll : List Str → Str
  | [] => []
  | x :: xs => x ++ joinAll xs

/-- Python ".".join for a list of strings. -/
def joinDot : List Str → Str
  | [] => []
  | [x] => x
  | x :: xs => x ++ '.' :: joinDot xs

/-- Value of a decimal digit character. -/
def digitVal (c : Char) : Nat := c.toNat - 48

/-- Python int(s) for a string of decimal digits (accumulator form). -/
def charsToNatAux (a : Nat) : Str → Nat
  | [] => a
  | c :: rest => charsToNatAux (a * 10 + digitVal c) rest

/-- Python int(s) for a string of decimal digits. -/
def charsToNat (l : Str) : Nat := charsToNatAux 0 l

/-- Little-endian decimal digits of `n` (with explicit fuel so that the
definition is structural and kernel-reducible); empty for `n = 0`. -/
def natDigitsLE : Nat → Nat → List Nat
  | 0, _ => []
  | fuel + 1, n => if n = 0 then [] else n % 10 :: natDigitsLE fuel (n / 10)

/-- The character of a decimal digit. -/
def digitChar (d : Nat) : Char := Char.ofNat (48 + d)

/-- Python str(n) for a natural number. -/
def natToChars (n : Nat) : Str :=
  if n = 0 then ['0'] else ((natDigitsLE n n).reverse).map digitChar

/-- Python dict assignment d[k] = v on an insertion-ordered association
list: an existing key keeps its position and gets the new value, a new key
is appended at the end. -/
def dictInsert {β : Type} : List (Str × β) → Str → β → List (Str × β)
  | [], k, v => [(k, v)]
  | (k0, v0) :: rest, k, v =>
    if k0 = k then (k0, v) :: rest else (k0, v0) :: dictInsert rest k v

/-- Python d.get(k): first binding of `k` (association lists built with
`dictInsert` have unique keys, so the first binding is the binding). -/
def dictGet {β : Type} : List (Str × β) → Str → Option β
  | [], _ => none
  | (k0, v0) :: rest, k => if k0 = k then some v0 else dictGet rest k

/-- A calendar date-time, the result of the cookie-date interpreter
(the fields datetime() is called with in DateParser6265.tree_parse). -/
structure CalDate where
  year : Nat
  month : Nat
  day : Nat
  hour : Nat
  minute : Nat
  second : Nat
deriving DecidableEq, Repr

/-- A Python datetime value as the embedded code can produce it: either a
calendar date from the date interpreter, or the symbolic instant
datetime.now() + n seconds (nowPlus 0 is datetime.now() itself). -/
inductive DTime where
  | cal (d : CalDate)
  | nowPlus (seconds : Nat)
deriving DecidableEq, Repr

/-- A value stored in an attribute dictionary.  The tokenizer produces
strings, SetCookieParser6265.validate stores datetimes under Expires and
Max-Age, and the repository test suite constructs Cookie6265 directly with
an integer Max-Age, so all three shapes occur. -/
inductive AttrVal where
  | s (v : Str)
  | dt (t : DTime)
  | int (n : Int)
deriving DecidableEq, Repr

/-- Python truthiness of an attribute value. -/
def AttrVal.truthy : AttrVal → Bool
  | .s v => !v.isEmpty
  | .dt _ => true
  | .int n => n ≠ 0

/-- Uri3986 (object_abstractions.py).  Exactly the eight constructor
fields; `query` is the insertion-ordered dictionary. -/
structure Uri where
  scheme : Str
  ip : Option Str
  port : Option Nat
  host : Option (List Str)
  userinfo : Option Str
  path : Str
  query : List (Str × Str)
  fragment : Option Str
deriving DecidableEq, Repr

/-- The expression self.ip or ".".join(self.host) shared by
Uri3986.get_domain and Uri3986.__str__: the ip if truthy, else the host
labels joined with dots; joining a missing host is a Python TypeError. -/
def pyHostname (u : Uri) : Except PyErr Str :=
  match u.ip with
  | some a =>
    if a.isEmpty then
      match u.host with
      | some h => .ok (joinDot h)
      | none => .error .typeError
    else .ok a
  | none =>
    match u.host with
    | some h => .ok (joinDot h)
    | none => .error .typeError

/-- Uri3986.get_domain (object_abstractions.py lines 114-117). -/
def getDomain (u : Uri) : Except PyErr Str := pyHostname u

/-- default_path (object_abstractions.py lines 4-15).  Empty path and
single-slash path give "/"; otherwise the code asserts that the segments
before the last "/" are not all empty (AssertionError when they are), then
returns the path with only a trailing slash removed. -/
def default_path (uri : Uri) : Except PyErr Str :=
  let uri_path := uri.path
  if uri_path.isEmpty then .ok ['/']
  else if uri_path.count '/' = 1 then .ok ['/']
  else if (joinAll ((splitChars '/' uri_path).dropLast)).length = 0 then
    .error .assertionError
  else if uri_path.getLast? = some '/' then .ok uri_path.dropLast
  else .ok uri_path

/-- path_matches (object_abstractions.py lines 18-28).  Faithful to the
source: after the startswith test the code inspects cookie_path[-1]
(IndexError on an empty cookie path) and then request_path[0] - the first
character of the request path, not the character after the prefix. -/
def path_matches (request_path cookie_path : Str) : Except PyErr Bool :=
  if request_path = cookie_path then .ok true
  else if pyStartsWith request_path cookie_path then
    match cookie_path.getLast? with
    | none => .error .indexError
    | some c =>
      if c = '/' then .ok true
      else
        match request_path with
        | [] => .error .indexError
        | r0 :: _ => if r0 = '/' then .ok true else .ok false
  else .ok false

/-- Cookie6265 (object_abstractions.py): the fields set by __init__.
creation_time and last_access_time are both datetime.now(), embedded as
DTime.nowPlus 0.  The secure/httponly fields store the Python truthiness
of the raw attribute values the constructor keeps. -/
structure Cookie where
  key : Str
  value : Str
  creation_time : DTime
  last_access_time : DTime
  persistent_flag : Bool
  expiry_time : AttrVal
  domain : Str
  host_only_flag : Bool
  path : AttrVal
  secure_only_flag : Bool
  http_only_flag : Bool
deriving DecidableEq, Repr

/-- Cookie6265.__init__ (object_abstractions.py lines 32-74), in source
order: the Domain/host-only resolution (raising ValueError when
path_matches rejects the request domain against the cookie domain), then
the Max-Age/Expires precedence (the comparison max_age > 0 is a Python
TypeError unless max_age is a number), then Path resolution falling back
to default_path, then the Secure/HttpOnly flags. -/
def cookieInit (key value : Str) (uri : Uri) (attrs : List (Str × AttrVal)) :
    Except PyErr Cookie := do
  let domain0 := (dictGet attrs "Domain".data).getD (.s [])
  let (domain, host_only_flag) ←
    if domain0.truthy then
      match domain0 with
      | .s d => do
        let rd ← getDomain uri
        let pm ← path_matches rd d
        if !pm then Except.error .valueError
        else pure (d, false)
      | _ => Except.error .typeError
    else do
      let rd ← getDomain uri
      pure (rd, true)
  let (persistent_flag, expiry_time) ←
    match dictGet attrs "Max-Age".data with
    | some v =>
      match v with
      | .int n =>
        if n > 0 then pure (true, AttrVal.dt (.nowPlus n.toNat))
        else pure (true, AttrVal.dt (.nowPlus 0))
      | _ => Except.error .typeError
    | none =>
      match dictGet attrs "Expires".data with
      | some e =>
        if e.truthy then pure (true, e)
        else pure (false, AttrVal.dt (.nowPlus 0))
      | none => pure (false, AttrVal.dt (.nowPlus 0))
  let path ←
    match dictGet attrs "Path".data with
    | some p => if p.truthy then pure p else AttrVal.s <$> default_path uri
    | none => AttrVal.s <$> default_path uri
  let secure := ((dictGet attrs "Secure".data).map AttrVal.truthy).getD false
  let httponly := ((dictGet attrs "HttpOnly".data).map AttrVal.truthy).getD false
  pure { key := key, value := value,
         creation_time := .nowPlus 0, last_access_time := .nowPlus 0,
         persistent_flag := persistent_flag, expiry_time := expiry_time,
         domain := domain, host_only_flag := host_only_flag,
         path := path, secure_only_flag := secure, http_only_flag := httponly }

/-! ## Cookie-date interpreter (core.py DateParser6265)

The lark grammar file grammars/rfc6265_date.lark is not among the sources;
the tokenization and the per-token matchers it decides are modelled from
the specification (section 4.2), while tree_parse itself is embedded from
core.py. -/

/-- Modelled from the spec: a cookie-date delimiter is every character
other than digits, letters and the colon (missing grammar file
rfc6265_date.lark). -/
def dateDelim (c : Char) : Bool :=
  !(c.isDigit || c.isAlpha || c = ':')

/-- Modelled from the spec: scan the input left to right, splitting it
into maximal runs of non-delimiter characters and discarding delimiter
runs (missing grammar file rfc6265_date.lark). -/
def dateTokensAux : Str → Str → List Str
  | [], cur => if cur.isEmpty then [] else [cur.reverse]
  | c :: rest, cur =>
    if dateDelim c then
      if cur.isEmpty then dateTokensAux rest []
      else cur.reverse :: dateTokensAux rest []
    else dateTokensAux rest (c :: cur)

/-- The date tokens of an input string. -/
def dateTokens (s : Str) : List Str := dateTokensAux s []

/-- A run of 1 or 2 decimal digits. -/
def isShortDigits (l : Str) : Bool :=
  decide (1 ≤ l.length) && decide (l.length ≤ 2) && l.all Char.isDigit

/-- Modelled from the spec: the time matcher accepts digits:digits:digits
with 1-2 digit fields (missing grammar file rfc6265_date.lark). -/
def isTimeTok (l : Str) : Bool :=
  match splitChars ':' l with
  | [h, m, s] => isShortDigits h && isShortDigits m && isShortDigits s
  | _ => false

/-- Modelled from the spec: the day-of-month matcher accepts a 1-2 digit
number (missing grammar file rfc6265_date.lark). -/
def isDayTok (l : Str) : Bool := isShortDigits l

/-- month_map of DateParser6265 (core.py lines 53-66), keyed by the
lower-cased token. -/
def monthMap : List (Str × Nat) :=
  [("jan".data, 1), ("feb".data, 2), ("mar".data, 3), ("apr".data, 4),
   ("may".data, 5), ("jun".data, 6), ("jul".data, 7), ("aug".data, 8),
   ("sep".data, 9), ("oct".data, 10), ("nov".data, 11), ("dec".data, 12)]

/-- Python token.lower() for the embedded strings. -/
def pyLower (l : Str) : Str := l.map Char.toLower

/-- Modelled from the spec: the month matcher accepts the twelve
three-letter month abbreviations case-insensitively (missing grammar file
rfc6265_date.lark). -/
def isMonthTok (l : Str) : Bool := (dictGet monthMap (pyLower l)).isSome

/-- Modelled from the spec: the year matcher accepts a 2-4 digit number
(missing grammar file rfc6265_date.lark). -/
def isYearTok (l : Str) : Bool :=
  decide (2 ≤ l.length) && decide (l.length ≤ 4) && l.all Char.isDigit

/-- The four at-most-once slots filled by the token classification loop of
DateParser6265.tree_parse. -/
structure DateSlots where
  time : Option (Nat × Nat × Nat) := none
  day : Option Nat := none
  month : Option Nat := none
  year : Option Nat := none
deriving DecidableEq, Repr

/-- The hour, minute and second of a time token (token.split(":")). -/
def timeFields (l : Str) : Nat × Nat × Nat :=
  match splitChars ':' l with
  | [h, m, s] => (charsToNat h, charsToNat m, charsToNat s)
  | _ => (0, 0, 0)

/-- One step of the token classification loop of tree_parse (core.py lines
100-118): each token is tested against time, then day-of-month, then
month, then year, and fills the first unfilled slot it matches. -/
def classifyTok (sl : DateSlots) (t : Str) : DateSlots :=
  if sl.time.isNone && isTimeTok t then { sl with time := some (timeFields t) }
  else if sl.day.isNone && isDayTok t then { sl with day := some (charsToNat t) }
  else if sl.month.isNone && isMonthTok t then
    { sl with month := dictGet monthMap (pyLower t) }
  else if sl.year.isNone && isYearTok t then { sl with year := some (charsToNat t) }
  else sl

/-- The classification of a token list. -/
def classify (toks : List Str) : DateSlots :=
  toks.foldl classifyTok {}

/-- Two-digit year normalization of tree_parse (core.py lines 120-124):
70-99 becomes 1900+value, 0-69 becomes 2000+value. -/
def normYear (y : Nat) : Nat :=
  if 70 ≤ y ∧ y ≤ 99 then y + 1900
  else if y ≤ 99 then y + 2000
  else y

/-- Days in a month of the (proleptic) Gregorian calendar, as validated by
the Python datetime constructor. -/
def daysInMonth (year month : Nat) : Nat :=
  if month = 2 then
    if year % 4 = 0 ∧ (year % 100 ≠ 0 ∨ year % 400 = 0) then 29 else 28
  else if month = 4 ∨ month = 6 ∨ month = 9 ∨ month = 11 then 30
  else if 1 ≤ month ∧ month ≤ 12 then 31
  else 0

/-- DateParser6265.tree_parse (core.py lines 82-161) applied to a token
list.  The year normalization runs before the filled-slots check, so a
missing year is a Python TypeError (None compared with an int); missing
other slots and the range checks raise ValidationException in source
order; finally the datetime constructor itself raises ValueError when the
day of month does not exist in the resolved month and year. -/
def treeParse (toks : List Str) : Except PyErr CalDate :=
  let sl := classify toks
  match sl.year with
  | none => .error .typeError
  | some y0 =>
    let y := normYear y0
    match sl.time, sl.month, sl.day with
    | some (h, mi, se), some mo, some d =>
      if 1 > d ∨ d > 31 then .error .validationException
      else if y < 1601 then .error .validationException
      else if h > 23 then .error .validationException
      else if mi > 59 then .error .validationException
      else if se > 59 then .error .validationException
      else if d > daysInMonth y mo then .error .valueError
      else .ok ⟨y, mo, d, h, mi, se⟩
    | _, _, _ => .error .validationException

/-- DateParser6265.parse (core.py lines 163-168): tokenization plus
tree_parse wrapped in a try/except that re-raises every failure as
ParseException. -/
def dateParse (s : Str) : Except PyErr CalDate :=
  match treeParse (dateTokens s) with
  | .ok d => .ok d
  | .error _ => .error .parseException

/-! ## Set-Cookie parsing (core.py SetCookieParser6265) -/

/-- The body of the attribute loop of SetCookieParser6265.validate
(core.py lines 172-224), folding the raw attributes in order into the
cleaned dictionary.  Faithful points: an unparsable Expires is skipped; a
Max-Age value is examined at index 0 first (IndexError on an empty value),
is skipped unless its first character is a digit or "=" (sic), is skipped
if any character is a non-digit, and otherwise stores the derived expiry
datetime (now for values less than or equal to 0, now + value seconds
otherwise); an empty Domain is skipped, a leading dot stripped and the
rest lower-cased; a Path not starting with "/" is replaced by
default_path(uri) (whose AssertionError propagates); Secure and HttpOnly
store the empty string; unrecognized names are dropped. -/
def validateLoop (uri : Uri) :
    List (Str × Str) → List (Str × AttrVal) → Except PyErr (List (Str × AttrVal))
  | [], cleaned => .ok cleaned
  | (an, av) :: rest, cleaned =>
    if pyLower an = "expires".data then
      match dateParse av with
      | .ok d => validateLoop uri rest (dictInsert cleaned "Expires".data (.dt (.cal d)))
      | .error _ => validateLoop uri rest cleaned
    else if pyLower an = "max-age".data then
      match av with
      | [] => .error .indexError
      | c :: _ =>
        if !(c.isDigit || c = '=') then validateLoop uri rest cleaned
        else if av.any (fun ch => !ch.isDigit) then validateLoop uri rest cleaned
        else
          let delta_seconds := charsToNat av
          if delta_seconds ≤ 0 then
            validateLoop uri rest (dictInsert cleaned "Max-Age".data (.dt (.nowPlus 0)))
          else
            validateLoop uri rest (dictInsert cleaned "Max-Age".data (.dt (.nowPlus delta_seconds)))
    else if pyLower an = "domain".data then
      if av.isEmpty then validateLoop uri rest cleaned
      else
        let cd := match av with | '.' :: r => r | _ => av
        validateLoop uri rest (dictInsert cleaned "Domain".data (.s (pyLower cd)))
    else if pyLower an = "path".data then
      if av.isEmpty || av.head? ≠ some '/' then do
        let cookie_path ← default_path uri
        validateLoop uri rest (dictInsert cleaned "Path".data (.s cookie_path))
      else validateLoop uri rest (dictInsert cleaned "Path".data (.s av))
    else if pyLower an = "secure".data then
      validateLoop uri rest (dictInsert cleaned "Secure".data (.s []))
    else if pyLower an = "httponly".data then
      validateLoop uri rest (dictInsert cleaned "HttpOnly".data (.s []))
    else validateLoop uri rest cleaned

/-- SetCookieParser6265.validate (core.py lines 172-224). -/
def validate (attrs : List (Str × Str)) (uri : Uri) :
    Except PyErr (List (Str × AttrVal)) :=
  validateLoop uri attrs []

/-- Python s[-1:]: the one-character suffix, empty for the empty string. -/
def lastCharStr (l : Str) : Str :=
  match l.getLast? with
  | none => []
  | some c => [c]

/-- The attribute loop of SetCookieParser6265.parse (core.py lines
243-260).  Each iteration drops the leading character (the separator),
cuts the segment before the next ";", splits it on the first "=" (a
missing "=" gives an empty value), strips both halves and assigns into
the attribute dictionary; the remainder is the rest from the ";" on, or —
via the Python slice [-1:] on a find result of -1 — the last character of
the current segment, which yields one final stray iteration.  The fuel is
always called with length + 1, which bounds the iteration count since the
remainder shrinks at every step. -/
def tokenizeLoop : Nat → Str → List (Str × Str) → List (Str × Str)
  | 0, _, attrs => attrs
  | _ + 1, [], attrs => attrs
  | fuel + 1, _ :: u1, attrs =>
    let (cookie_av, rest) := spanUntil (fun c => c = ';') u1
    let (an, av) :=
      match spanUntil (fun c => c = '=') cookie_av with
      | (n, []) => (n, [])
      | (n, _ :: v) => (n, v)
    let attrs2 := dictInsert attrs (pyStrip an) (pyStrip av)
    match rest with
    | [] => tokenizeLoop fuel (lastCharStr u1) attrs2
    | _ => tokenizeLoop fuel rest attrs2

/-- SetCookieParser6265.parse (core.py lines 226-263): the name/value pair
is the portion before the first ";", split on the first "="; a missing
"=" returns None (a silently absent result), an empty stripped name
executes raise None, which in Python is a TypeError; then the attribute
loop, validate, and the Cookie6265 constructor. -/
def setCookieParse (value : Str) (uri : Uri) : Except PyErr (Option Cookie) :=
  let (name_value_pair, unparsed_attributes) :=
    if value.contains ';' then spanUntil (fun c => c = ';') value
    else (value, [])
  match spanUntil (fun c => c = '=') name_value_pair with
  | (_, []) => .ok none
  | (n, _ :: v) =>
    let name := pyStrip n
    let val := pyStrip v
    if name.isEmpty then .error .typeError
    else do
      let attrs := tokenizeLoop (unparsed_attributes.length + 1) unparsed_attributes []
      let cleaned ← validate attrs uri
      let cookie ← cookieInit name val uri cleaned
      pure (some cookie)

/-! ## URI parsing (core.py UriParser3986)

The lark grammar file grammars/rfc3986_uri.lark is not among the sources;
the tokenization it decides is modelled from the specification (section
4.1), restricted to the authority form with an IPv4 host that the claims
quantify over.  Uri3986.__str__ and Uri3986.__eq__ are embedded from
object_abstractions.py. -/

/-- Modelled from the spec: an RFC 3986 dec-octet of the IPv4 matcher
(missing grammar file rfc3986_uri.lark): 1-3 digits, value at most 255, no leading zero
except the single digit 0. -/
def decOctet : Str → Bool
  | [] => false
  | c :: rest =>
    (c :: rest).all Char.isDigit && decide ((c :: rest).length ≤ 3) &&
    decide (charsToNat (c :: rest) ≤ 255) && (decide (rest = []) || decide (c ≠ '0'))

/-- Modelled from the spec: the dotted-decimal IPv4 literal matcher the
host is tested against first (missing grammar file rfc3986_uri.lark). -/
def isIPv4 (cs : Str) : Bool :=
  match splitChars '.' cs with
  | [a, b, c, d] => decOctet a && decOctet b && decOctet c && decOctet d
  | _ => false

/-- Modelled from the spec: the authority is split into an optional
userinfo before "@" and then host[:port]; the host must be an IPv4
literal here; the port is int(port) if the digits are non-empty, None
otherwise, and a non-digit port fails the parse (missing grammar file
rfc3986_uri.lark). -/
def parseAuthority (auth : Str) : Option (Option Str × Str × Option Nat) :=
  let sp := spanUntil (fun c => c = '@') auth
  let ui : Option Str := if sp.2 = [] then none else some sp.1
  let hostport := if sp.2 = [] then auth else sp.2.tail
  let sp2 := spanUntil (fun c => c = ':') hostport
  let hostc := sp2.1
  let portc : Option Str := if sp2.2 = [] then none else some sp2.2.tail
  if isIPv4 hostc then
    match portc with
    | none => some (ui, hostc, none)
    | some pc =>
      if pc = [] then some (ui, hostc, none)
      else if pc.all Char.isDigit then some (ui, hostc, some (charsToNat pc))
      else none
  else none

/-- One query segment split on its first "="; a segment without "=" fails
the whole parse (spec section 4.1). -/
def parseQSeg (seg : Str) : Option (Str × Str) :=
  match spanUntil (fun c => c = '=') seg with
  | (_, []) => none
  | (k, _ :: v) => some (k, v)

/-- The query segments folded into the insertion-ordered dictionary
(last occurrence of a key wins). -/
def parseQList : List Str → List (Str × Str) → Option (List (Str × Str))
  | [], acc => some acc
  | seg :: rest, acc =>
    match parseQSeg seg with
    | none => none
    | some (k, v) => parseQList rest (dictInsert acc k v)

/-- Modelled from the spec: the path stage (missing grammar file
rfc3986_uri.lark) - if the remainder after the authority starts with "/",
the path runs to the first "?" or "#"; otherwise the path is empty. -/
def parsePath (rest3 : Str) : Str × Str :=
  if rest3.head? = some '/' then spanUntil (fun c => c = '?' || c = '#') rest3
  else ([], rest3)

/-- Modelled from the spec: the query/fragment stage (missing grammar
file rfc3986_uri.lark) - a leading "?" opens the query characters,
which run to the first "#"; a "#" opens the fragment, which is the whole
remainder. -/
def parseQF (rest4 : Str) : Option Str × Option Str :=
  if rest4.head? = some '?' then
    let sp := spanUntil (fun c => c = '#') rest4.tail
    (some sp.1, if sp.2.head? = some '#' then some sp.2.tail else none)
  else if rest4.head? = some '#' then (none, some rest4.tail)
  else (none, none)

/-- Modelled from the spec: the query-string stage (missing grammar file
rfc3986_uri.lark) - an absent or empty query string gives the
empty dictionary, otherwise the "&"-separated segments are parsed. -/
def parseQuery : Option Str → Option (List (Str × Str))
  | none => some []
  | some qc => if qc = [] then some [] else parseQList (splitChars '&' qc) []

/-- Modelled from the spec: UriParser3986.parse restricted to the
authority form scheme://[userinfo@]host[:port][path][?query][#fragment]
with an IPv4 host (missing grammar file rfc3986_uri.lark).  The scheme is
the portion before the first ":", the authority runs to the first "/",
"?" or "#", then the stages above. -/
def parseUri (s : Str) : Option Uri :=
  let sp1 := spanUntil (fun c => c = ':') s
  if sp1.2.take 3 = [':', '/', '/'] then
    let sp2 := spanUntil (fun c => c = '/' || c = '?' || c = '#') (sp1.2.drop 3)
    match parseAuthority sp2.1 with
    | none => none
    | some (ui, ip, port) =>
      let pf := parsePath sp2.2
      let qf := parseQF pf.2
      match parseQuery qf.1 with
      | none => none
      | some q =>
        some { scheme := sp1.1, ip := some ip, port := port, host := none,
               userinfo := ui, path := pf.1, query := q, fragment := qf.2 }
  else none

/-- The rendered query string: "&"-joined key=value pairs
(Uri3986.__str__, object_abstractions.py line 143). -/
def renderQuery : List (Str × Str) → Str
  | [] => []
  | [(k, v)] => k ++ '=' :: v
  | (k, v) :: rest => (k ++ '=' :: v) ++ '&' :: renderQuery rest

/-- The userinfo section of Uri3986.__str__: userinfo@ when truthy. -/
def uiRender : Option Str → Str
  | none => []
  | some ui => if ui = [] then [] else ui ++ ['@']

/-- The port section of Uri3986.__str__: :port when truthy (so port 0 is
omitted, like an absent port). -/
def portRender : Option Nat → Str
  | none => []
  | some p => if p ≠ 0 then ':' :: natToChars p else []

/-- The path section of Uri3986.__str__: "/" when the path is empty. -/
def pathRender (p : Str) : Str := if p = [] then ['/'] else p

/-- The query section of Uri3986.__str__: ?pairs when non-empty. -/
def queryRender (q : List (Str × Str)) : Str :=
  if q = [] then [] else '?' :: renderQuery q

/-- The fragment section of Uri3986.__str__: #fragment when truthy. -/
def fragRender : Option Str → Str
  | none => []
  | some f => if f = [] then [] else '#' :: f

/-- Uri3986.__str__ (object_abstractions.py lines 136-147): Python
truthiness governs every optional section, so port 0, an empty userinfo,
an empty fragment and an empty query are omitted and an empty path is
rendered as "/". -/
def uriStr (u : Uri) : Except PyErr Str := do
  let hostname ← pyHostname u
  pure (u.scheme ++ ':' :: '/' :: '/' ::
    (uiRender u.userinfo ++ hostname ++ portRender u.port ++
     pathRender u.path ++ queryRender u.query ++ fragRender u.fragment))

/-- Python dict equality: both dictionaries bind exactly the same keys to
the same values (insertion order is irrelevant). -/
def dictEqStr (a b : List (Str × Str)) : Bool :=
  a.all (fun p => dictGet b p.1 = some p.2) && b.all (fun p => dictGet a p.1 = some p.2)

/-- Uri3986.__eq__ (object_abstractions.py lines 119-134): all eight
components equal, with the query compared as a Python dict. -/
def uriEq (u v : Uri) : Bool :=
  decide (u.scheme = v.scheme) && decide (u.ip = v.ip) && decide (u.port = v.port) &&
  decide (u.host = v.host) && decide (u.userinfo = v.userinfo) &&
  decide (u.path = v.path) && dictEqStr u.query v.query &&
  decide (u.fragment = v.fragment)

/-- The round-trip property of claim C9 at one input: if the input
parses, rendering the result and re-parsing gives a Uri equal (in the
sense of Uri3986.__eq__) to the original; inputs that do not parse hold
vacuously. -/
def roundTrips (s : Str) : Bool :=
  match parseUri s with
  | none => true
  | some u =>
    match uriStr u with
    | .error _ => false
    | .ok r =>
      match parseUri r with
      | none => false
      | some u2 => uriEq u u2

/-! ## Definitions taken from the words of the specification, for
comparison with the embedded source functions. -/

/-- Modelled from the spec: the path-match predicate as the specification
states it - true if equal, else true iff the request path starts with the
cookie path and either the cookie path ends in "/" or the character of
the request path immediately following the cookie-path prefix is "/". -/
def pathMatchesSpec (requestPath cookiePath : Str) : Bool :=
  decide (requestPath = cookiePath) ||
  (pyStartsWith requestPath cookiePath &&
    (decide (cookiePath.getLast? = some '/') ||
     decide (requestPath.get? cookiePath.length = some '/')))

/-- Modelled from the spec: the default-path computation as the
specification states it - drop everything after and including the final
"/" of the URI path; if the result would be empty or the path contains no
"/" beyond the leading one, the default path is "/". -/
def defaultPathSpec (p : Str) : Str :=
  let r := ((p.reverse.dropWhile (fun c => c ≠ '/')).drop 1).reverse
  if r.isEmpty ∨ p.count '/' ≤ 1 then ['/'] else r

/-- Modelled from the spec: the proper domain-match rule - the request
domain equals the cookie domain, or ends with "." followed by the cookie
domain. -/
def domainMatchSpec (requestDomain cookieDomain : Str) : Bool :=
  decide (requestDomain = cookieDomain) ||
  pyEndsWith requestDomain ('.' :: cookieDomain)

/-- Modelled from the spec: a signed integer in the sense of claim C3 -
an optional single leading sign followed by at least one digit. -/
def isSignedIntStr : Str → Bool
  | [] => false
  | c :: rest =>
    if c = '-' ∨ c = '+' then !rest.isEmpty && rest.all Char.isDigit
    else (c :: rest).all Char.isDigit

/-- The acceptance condition of claim C8 as stated: all four slots
filled, day of month in [1,31], normalized year at least 1601, hour at
most 23, minute and second at most 59 - with no cross-validation of the
day against the month. -/
def dateAcceptClaim (toks : List Str) : Bool :=
  let sl := classify toks
  match sl.time, sl.day, sl.month, sl.year with
  | some (h, mi, se), some d, some _, some y =>
    decide (1 ≤ d) && decide (d ≤ 31) && decide (1601 ≤ normYear y) &&
    decide (h ≤ 23) && decide (mi ≤ 59) && decide (se ≤ 59)
  | _, _, _, _ => false

/-- The corrected acceptance condition: claim C8 plus the calendar check
the Python datetime constructor performs on the day of month. -/
def dateAcceptAmended (toks : List Str) : Bool :=
  let sl := classify toks
  match sl.time, sl.day, sl.month, sl.year with
  | some (h, mi, se), some d, some mo, some y =>
    decide (1 ≤ d) && decide (d ≤ 31) && decide (1601 ≤ normYear y) &&
    decide (h ≤ 23) && decide (mi ≤ 59) && decide (se ≤ 59) &&
    decide (d ≤ daysInMonth (normYear y) mo)
  | _, _, _, _ => false

/-! ## Supporting definitions for the theorems -/

/-- The keys of an association list. -/
def keysOf {β : Type} (l : List (Str × β)) : List Str := l.map Prod.fst

/-- Little-endian decimal value of a digit list. -/
def ofLE : List Nat → Nat
  | [] => 0
  | d :: ds => d + 10 * ofLE ds

/-- The rendered form of one query pair. -/
def segOf (p : Str × Str) : Str := p.1 ++ '=' :: p.2

/-- The shape invariant of every Uri produced by `parseUri`: an IPv4
literal host, no label list, a scheme without ":", a userinfo without
"@", "/", "?" or "#", a path that is empty or starts with "/" and
contains no "?" or "#", query keys without "&", "=" or "#" and values
without "&" or "#", and pairwise distinct query keys. -/
structure WFUri (u : Uri) : Prop where
  ip_ipv4 : ∃ a, u.ip = some a ∧ isIPv4 a = true
  host_none : u.host = none
  scheme_ok : ':' ∉ u.scheme
  ui_ok : ∀ ui, u.userinfo = some ui →
    '@' ∉ ui ∧ '/' ∉ ui ∧ '?' ∉ ui ∧ '#' ∉ ui
  path_shape : u.path = [] ∨ ∃ rest, u.path = '/' :: rest
  path_clean : '?' ∉ u.path ∧ '#' ∉ u.path
  query_clean : ∀ p ∈ u.query,
    '&' ∉ p.1 ∧ '=' ∉ p.1 ∧ '#' ∉ p.1 ∧ '&' ∉ p.2 ∧ '#' ∉ p.2
  query_nodup : (keysOf u.query).Nodup

/-- The request URI https://example.com as UriParser3986 produces it
(host labels, empty path). -/
def exUri : Uri :=
  { scheme := "https".data, ip := none, port := none,
    host := some ["example".data, "com".data], userinfo := none,
    path := [], query := [], fragment := none }

/-- The request URI https://www.youtube.com. -/
def wwwYtUri : Uri :=
  { scheme := "https".data, ip := none, port := none,
    host := some ["www".data, "youtube".data, "com".data], userinfo := none,
    path := [], query := [], fragment := none }

/-- An example.com request URI with an arbitrary path. -/
def withPath (p : Str) : Uri :=
  { scheme := "https".data, ip := none, port := none,
    host := some ["example".data, "com".data], userinfo := none,
    path := p, query := [], fragment := none }

/-! ## Basic lemmas about the string helpers -/

theorem spanUntil_fst_false (p : Char → Bool) :
    ∀ l : Str, ∀ c ∈ (spanUntil p l).1, p c = false := by
  intro l
  induction l with
  | nil => intro c hc; simp [spanUntil] at hc
  | cons a rest ih =>
    intro c hc
    simp only [spanUntil] at hc
    by_cases hp : p a
    · simp [hp] at hc
    · simp only [hp, if_neg, Bool.false_eq_true, not_false_iff, if_false] at hc
      rcases List.mem_cons.mp hc with h | h
      · subst h; simpa using hp
      · exact ih c h

theorem spanUntil_append (p : Char → Bool) (a : Str) (d : Char) (b : Str)
    (ha : ∀ c ∈ a, p c = false) (hd : p d = true) :
    spanUntil p (a ++ d :: b) = (a, d :: b) := by
  induction a with
  | nil => simp [spanUntil, hd]
  | cons x xs ih =>
    have hx : p x = false := ha x (List.mem_cons_self x xs)
    have ih2 := ih (fun c hc => ha c (List.mem_cons_of_mem x hc))
    simp [spanUntil, hx, ih2]

theorem spanUntil_all (p : Char → Bool) (a : Str) (ha : ∀ c ∈ a, p c = false) :
    spanUntil p a = (a, []) := by
  induction a with
  | nil => simp [spanUntil]
  | cons x xs ih =>
    have hx : p x = false := ha x (List.mem_cons_self x xs)
    have ih2 := ih (fun c hc => ha c (List.mem_cons_of_mem x hc))
    simp [spanUntil, hx, ih2]

theorem spanUntil_decomp (p : Char → Bool) :
    ∀ l : Str, (spanUntil p l).1 ++ (spanUntil p l).2 = l := by
  intro l
  induction l with
  | nil => simp [spanUntil]
  | cons a rest ih =>
    by_cases hp : p a
    · simp [spanUntil, hp]
    · simp [spanUntil, hp, ih]

theorem spanUntil_fst_mem (p : Char → Bool) (l : Str) (c : Char)
    (hc : c ∈ (spanUntil p l).1) : c ∈ l := by
  have := spanUntil_decomp p l
  rw [← this]
  exact List.mem_append_left _ hc

theorem splitChars_not_sep (sep : Char) :
    ∀ l : Str, ∀ part ∈ splitChars sep l, sep ∉ part := by
  intro l
  induction l with
  | nil => intro part hp; simp [splitChars] at hp; simp [hp]
  | cons c rest ih =>
    intro part hp
    simp only [splitChars] at hp
    by_cases hc : c = sep
    · simp only [hc, if_pos rfl] at hp
      rcases List.mem_cons.mp hp with h | h
      · simp [h]
      · exact ih part h
    · simp only [if_neg hc] at hp
      rcases hsp : splitChars sep rest with _ | ⟨p0, ps⟩
      · rw [hsp] at hp
        rcases List.mem_cons.mp hp with h | h
        · subst h
          intro hmem
          rcases List.mem_cons.mp hmem with h | h
          · exact hc h.symm
          · simp at h
        · simp at h
      · rw [hsp] at hp
        rcases List.mem_cons.mp hp with h | h
        · subst h
          intro hmem
          rcases List.mem_cons.mp hmem with h | h
          · exact hc h.symm
          · exact ih p0 (by rw [hsp]; exact List.mem_cons_self _ _) h
        · exact ih part (by rw [hsp]; exact List.mem_cons_of_mem _ h)

theorem splitChars_mem_of (sep : Char) :
    ∀ l : Str, ∀ c ∈ l, c = sep ∨ ∃ part ∈ splitChars sep l, c ∈ part := by
  intro l
  induction l with
  | nil => intro c hc; simp at hc
  | cons a rest ih =>
    intro c hc
    rcases List.mem_cons.mp hc with h | h
    · subst h
      by_cases ha : c = sep
      · exact Or.inl ha
      · refine Or.inr ?_
        simp only [splitChars, if_neg ha]
        rcases hsp : splitChars sep rest with _ | ⟨p0, ps⟩
        · exact ⟨[c], List.mem_cons_self _ _, List.mem_cons_self _ _⟩
        · exact ⟨c :: p0, List.mem_cons_self _ _, List.mem_cons_self _ _⟩
    · rcases ih c h with h1 | ⟨part, hp, hcp⟩
      · exact Or.inl h1
      · refine Or.inr ?_
        simp only [splitChars]
        by_cases ha : a = sep
        · exact ⟨part, by simp [ha, List.mem_cons_of_mem _ hp], hcp⟩
        · rcases hsp : splitChars sep rest with _ | ⟨p0, ps⟩
          · rw [hsp] at hp; simp at hp
          · rw [hsp] at hp
            rcases List.mem_cons.mp hp with h2 | h2
            · subst h2
              exact ⟨a :: part, by simp [ha], List.mem_cons_of_mem _ hcp⟩
            · exact ⟨part, by simp [ha, List.mem_cons_of_mem _ h2], hcp⟩

theorem splitChars_no_sep (sep : Char) (a : Str) (ha : sep ∉ a) :
    splitChars sep a = [a] := by
  induction a with
  | nil => simp [splitChars]
  | cons x xs ih =>
    have hx : x ≠ sep := fun h => ha (h ▸ List.mem_cons_self x xs)
    have ih2 := ih (fun h => ha (List.mem_cons_of_mem x h))
    simp [splitChars, hx, ih2]

theorem splitChars_append_cons (sep : Char) (a b : Str) (ha : sep ∉ a) :
    splitChars sep (a ++ sep :: b) = a :: splitChars sep b := by
  induction a with
  | nil => simp [splitChars]
  | cons x xs ih =>
    have hx : x ≠ sep := fun h => ha (h ▸ List.mem_cons_self x xs)
    have ih2 := ih (fun h => ha (List.mem_cons_of_mem x h))
    simp only [List.cons_append, splitChars, if_neg hx]
    rw [List.append_eq, ih2]

theorem joinAll_eq_nil (l : List Str) (h : ∀ x ∈ l, x = []) : joinAll l = [] := by
  induction l with
  | nil => rfl
  | cons x xs ih =>
    have hx : x = [] := h x (List.mem_cons_self x xs)
    have := ih (fun y hy => h y (List.mem_cons_of_mem x hy))
    simp [joinAll, hx, this]

/-! ## Decimal printing and parsing -/

theorem charsToNatAux_append (a : Nat) (l m : Str) :
    charsToNatAux a (l ++ m) = charsToNatAux (charsToNatAux a l) m := by
  induction l generalizing a with
  | nil => rfl
  | cons c cs ih => exact ih (a * 10 + digitVal c)

theorem digitVal_digitChar (d : Nat) (hd : d < 10) : digitVal (digitChar d) = d := by
  interval_cases d <;> decide

theorem isDigit_digitChar (d : Nat) (hd : d < 10) : (digitChar d).isDigit = true := by
  interval_cases d <;> decide

theorem mem_natDigitsLE_lt : ∀ fuel n d, d ∈ natDigitsLE fuel n → d < 10 := by
  intro fuel
  induction fuel with
  | zero => intro n d hd; simp [natDigitsLE] at hd
  | succ f ih =>
    intro n d hd
    simp only [natDigitsLE] at hd
    by_cases hn : n = 0
    · simp [hn] at hd
    · rw [if_neg hn] at hd
      rcases List.mem_cons.mp hd with h | h
      · subst h; exact Nat.mod_lt _ (by omega)
      · exact ih _ d h

theorem ofLE_natDigitsLE : ∀ fuel n, n ≤ fuel → ofLE (natDigitsLE fuel n) = n := by
  intro fuel
  induction fuel with
  | zero => intro n hn; interval_cases n; rfl
  | succ f ih =>
    intro n hn
    simp only [natDigitsLE]
    by_cases hn0 : n = 0
    · simp [hn0, ofLE]
    · rw [if_neg hn0]
      simp only [ofLE]
      have hdiv : n / 10 ≤ f := by
        have : n / 10 < n := Nat.div_lt_self (by omega) (by omega)
        omega
      rw [ih _ hdiv]
      omega

theorem charsToNat_rev_digits (ds : List Nat) (h : ∀ d ∈ ds, d < 10) :
    charsToNat ((ds.reverse).map digitChar) = ofLE ds := by
  induction ds with
  | nil => rfl
  | cons d rest ih =>
    have hd : d < 10 := h d (List.mem_cons_self d rest)
    have ih2 := ih (fun x hx => h x (List.mem_cons_of_mem d hx))
    simp only [List.reverse_cons, List.map_append, List.map_cons, List.map_nil]
    unfold charsToNat at ih2 ⊢
    rw [charsToNatAux_append, ih2]
    show ofLE rest * 10 + digitVal (digitChar d) = ofLE (d :: rest)
    rw [digitVal_digitChar d hd]
    show ofLE rest * 10 + d = d + 10 * ofLE rest
    ring

theorem charsToNat_natToChars (n : Nat) : charsToNat (natToChars n) = n := by
  by_cases hn : n = 0
  · subst hn; rfl
  · unfold natToChars
    rw [if_neg hn]
    rw [charsToNat_rev_digits _ (fun d hd => mem_natDigitsLE_lt n n d hd)]
    exact ofLE_natDigitsLE n n le_rfl

theorem natToChars_all_digit (n : Nat) : ∀ c ∈ natToChars n, c.isDigit = true := by
  intro c hc
  unfold natToChars at hc
  by_cases hn : n = 0
  · simp [hn] at hc; subst hc; decide
  · rw [if_neg hn] at hc
    rcases List.mem_map.mp hc with ⟨d, hd, rfl⟩
    exact isDigit_digitChar d (mem_natDigitsLE_lt n n d (List.mem_reverse.mp hd))

theorem natToChars_ne_nil (n : Nat) : natToChars n ≠ [] := by
  unfold natToChars
  by_cases hn : n = 0
  · simp [hn]
  · rw [if_neg hn]
    have : natDigitsLE n n ≠ [] := by
      rcases n with _ | m
      · omega
      · simp [natDigitsLE, hn]
    simpa using this

/-! ## Dictionary lemmas -/

theorem keysOf_cons {β : Type} (p : Str × β) (l : List (Str × β)) :
    keysOf (p :: l) = p.1 :: keysOf l := rfl

theorem mem_keysOf {β : Type} {l : List (Str × β)} {k : Str} {v : β}
    (h : (k, v) ∈ l) : k ∈ keysOf l :=
  List.mem_map_of_mem Prod.fst h

theorem dictInsert_fresh {β : Type} (l : List (Str × β)) (k : Str) (v : β)
    (h : k ∉ keysOf l) : dictInsert l k v = l ++ [(k, v)] := by
  induction l with
  | nil => rfl
  | cons p rest ih =>
    rw [keysOf_cons] at h
    have hk : p.1 ≠ k := fun he => h (he ▸ List.mem_cons_self _ _)
    have ih2 := ih (fun hm => h (List.mem_cons_of_mem _ hm))
    cases p with
    | mk k0 v0 =>
      simp only [dictInsert, if_neg hk, List.cons_append]
      rw [ih2]

theorem dictGet_of_nodup {β : Type} :
    ∀ (l : List (Str × β)) (k : Str) (v : β),
      (keysOf l).Nodup → (k, v) ∈ l → dictGet l k = some v := by
  intro l
  induction l with
  | nil => intro k v _ hm; simp at hm
  | cons p rest ih =>
    intro k v hnd hm
    cases p with
    | mk k0 v0 =>
      rw [keysOf_cons] at hnd
      have hnd2 := List.nodup_cons.mp hnd
      rcases List.mem_cons.mp hm with h | h
      · have hk : k = k0 := congrArg Prod.fst h
        have hv : v = v0 := congrArg Prod.snd h
        subst hk; subst hv
        simp [dictGet]
      · have hk : k0 ≠ k := by
          intro he
          subst he
          exact hnd2.1 (mem_keysOf h)
        simp only [dictGet, if_neg hk]
        exact ih k v hnd2.2 h

theorem dictEqStr_refl (q : List (Str × Str)) (hnd : (keysOf q).Nodup) :
    dictEqStr q q = true := by
  unfold dictEqStr
  rw [Bool.and_self]
  rw [List.all_eq_true]
  intro p hp
  cases p with
  | mk k v => exact decide_eq_true (dictGet_of_nodup q k v hnd hp)

theorem uriEq_refl (u : Uri) (hnd : (keysOf u.query).Nodup) : uriEq u u = true := by
  unfold uriEq
  rw [dictEqStr_refl u.query hnd]
  simp

theorem keysOf_dictInsert {β : Type} (l : List (Str × β)) (k : Str) (v : β) :
    keysOf (dictInsert l k v) = keysOf l ∨
    keysOf (dictInsert l k v) = keysOf l ++ [k] := by
  induction l with
  | nil => right; rfl
  | cons p rest ih =>
    cases p with
    | mk k0 v0 =>
      by_cases hk : k0 = k
      · left
        simp only [dictInsert, if_pos hk, keysOf_cons]
      · rcases ih with h | h
        · left
          simp only [dictInsert, if_neg hk, keysOf_cons, h]
        · right
          simp only [dictInsert, if_neg hk, keysOf_cons, h, List.cons_append]

/-! ## IPv4 character facts -/

theorem decOctet_digits (l : Str) (h : decOctet l = true) :
    ∀ c ∈ l, c.isDigit = true := by
  cases l with
  | nil => simp [decOctet] at h
  | cons c rest =>
    unfold decOctet at h
    intro x hx
    have hall := (Bool.and_eq_true ..).mp ((Bool.and_eq_true ..).mp
      ((Bool.and_eq_true ..).mp h).1).1
    exact List.all_eq_true.mp hall.1 x hx

theorem isIPv4_chars (a : Str) (h : isIPv4 a = true) :
    ∀ c ∈ a, c.isDigit = true ∨ c = '.' := by
  intro c hc
  unfold isIPv4 at h
  rcases hsp : splitChars '.' a with _ | ⟨p1, t1⟩ <;> rw [hsp] at h
  · simp at h
  · rcases t1 with _ | ⟨p2, t2⟩
    · simp at h
    · rcases t2 with _ | ⟨p3, t3⟩
      · simp at h
      · rcases t3 with _ | ⟨p4, t4⟩
        · simp at h
        · rcases t4 with _ | ⟨p5, t5⟩
          · rcases splitChars_mem_of '.' a c hc with hdot | ⟨part, hpart, hcp⟩
            · exact Or.inr hdot
            · rw [hsp] at hpart
              have h1 := (Bool.and_eq_true ..).mp h
              have h2 := (Bool.and_eq_true ..).mp h1.1
              have h3 := (Bool.and_eq_true ..).mp h2.1
              fin_cases hpart
              · exact Or.inl (decOctet_digits p1 h3.1 c hcp)
              · exact Or.inl (decOctet_digits p2 h3.2 c hcp)
              · exact Or.inl (decOctet_digits p3 h2.2 c hcp)
              · exact Or.inl (decOctet_digits p4 h1.2 c hcp)
          · simp at h

theorem isIPv4_ne_nil (a : Str) (h : isIPv4 a = true) : a ≠ [] := by
  intro he
  subst he
  simp [isIPv4, splitChars] at h

/-! ## Reduction lemmas for the end-to-end parse with an abstract path -/

theorem setCookieParse_kv_eq (u : Uri) :
    setCookieParse "k=v".data u =
      Except.bind (cookieInit "k".data "v".data u [])
        (fun c => Except.ok (some c)) := rfl

theorem cookieInit_withPath (key value : Str) (p : Str) :
    cookieInit key value (withPath p) [] =
      Except.bind (Except.map AttrVal.s (default_path (withPath p)))
        (fun path => Except.ok
          { key := key, value := value, creation_time := .nowPlus 0,
            last_access_time := .nowPlus 0, persistent_flag := false,
            expiry_time := .dt (.nowPlus 0), domain := "example.com".data,
            host_only_flag := true, path := path,
            secure_only_flag := false, http_only_flag := false }) := rfl

/-! ## Date interpreter lemmas -/

theorem treeParse_ok_iff (toks : List Str) :
    (∃ d, treeParse toks = .ok d) ↔ dateAcceptAmended toks = true := by
  unfold treeParse dateAcceptAmended
  rcases hy : (classify toks).year with _ | y
  · simp [hy]
  · rcases ht : (classify toks).time with _ | ⟨h, mi, se⟩
    · simp [hy, ht]
    · rcases hmo : (classify toks).month with _ | mo
      · simp [hy, ht, hmo]
      · rcases hd : (classify toks).day with _ | d
        · simp [hy, ht, hmo, hd]
        · simp only [hy, ht, hmo, hd]
          split_ifs with h1 h2 h3 h4 h5 h6 <;>
            simp [Bool.and_eq_true, decide_eq_true_eq] <;> omega

/-! ## Further helpers for the URI round trip -/

theorem spanUntil_cons_false (p : Char → Bool) (c : Char) (l : Str)
    (hc : p c = false) :
    spanUntil p (c :: l) = (c :: (spanUntil p l).1, (spanUntil p l).2) := by
  simp [spanUntil, hc]

theorem spanUntil_append_left (p : Char → Bool) (a b : Str)
    (ha : ∀ c ∈ a, p c = false) :
    spanUntil p (a ++ b) = (a ++ (spanUntil p b).1, (spanUntil p b).2) := by
  induction a with
  | nil => simp
  | cons x xs ih =>
    have hx : p x = false := ha x (List.mem_cons_self x xs)
    have ih2 := ih (fun c hc => ha c (List.mem_cons_of_mem x hc))
    simp only [List.cons_append, spanUntil_cons_false p x _ hx, ih2]

theorem spanUntil_fst_not (p : Char → Bool) (l : Str) (d : Char)
    (hd : p d = true) : d ∉ (spanUntil p l).1 := by
  intro hmem
  have := spanUntil_fst_false p l d hmem
  rw [hd] at this
  cases this

theorem mem_dictInsert {β : Type} (l : List (Str × β)) (k : Str) (v : β)
    (q : Str × β) (h : q ∈ dictInsert l k v) : q ∈ l ∨ q = (k, v) := by
  induction l with
  | nil => simpa [dictInsert] using h
  | cons p rest ih =>
    cases p with
    | mk k0 v0 =>
      by_cases hk : k0 = k
      · rw [show dictInsert ((k0, v0) :: rest) k v = (k0, v) :: rest from by
          simp [dictInsert, hk]] at h
        rcases List.mem_cons.mp h with h1 | h1
        · right; rw [h1, hk]
        · left; exact List.mem_cons_of_mem _ h1
      · rw [show dictInsert ((k0, v0) :: rest) k v = (k0, v0) :: dictInsert rest k v from by
          simp [dictInsert, hk]] at h
        rcases List.mem_cons.mp h with h1 | h1
        · left; rw [h1]; exact List.mem_cons_self _ _
        · rcases ih h1 with h2 | h2
          · left; exact List.mem_cons_of_mem _ h2
          · right; exact h2

theorem nodup_dictInsert {β : Type} (l : List (Str × β)) (k : Str) (v : β)
    (h : (keysOf l).Nodup) : (keysOf (dictInsert l k v)).Nodup := by
  induction l with
  | nil => simp [dictInsert, keysOf]
  | cons p rest ih =>
    cases p with
    | mk k0 v0 =>
      rw [keysOf_cons] at h
      have hnd := List.nodup_cons.mp h
      by_cases hk : k0 = k
      · rw [show dictInsert ((k0, v0) :: rest) k v = (k0, v) :: rest from by
          simp [dictInsert, hk]]
        rw [keysOf_cons]
        exact List.nodup_cons.mpr hnd
      · rw [show dictInsert ((k0, v0) :: rest) k v = (k0, v0) :: dictInsert rest k v from by
          simp [dictInsert, hk]]
        rw [keysOf_cons]
        refine List.nodup_cons.mpr ⟨?_, ih hnd.2⟩
        intro hm
        rcases keysOf_dictInsert rest k v with he | he
        · rw [he] at hm; exact hnd.1 hm
        · rw [he] at hm
          rcases List.mem_append.mp hm with h1 | h1
          · exact hnd.1 h1
          · exact hk (by simpa using h1)

theorem splitChars_mem_subset (sep : Char) :
    ∀ (l part : Str) (c : Char), part ∈ splitChars sep l → c ∈ part → c ∈ l := by
  intro l
  induction l with
  | nil =>
    intro part c hp hc
    simp [splitChars] at hp
    subst hp
    simp at hc
  | cons a rest ih =>
    intro part c hp hc
    simp only [splitChars] at hp
    by_cases ha : a = sep
    · rw [if_pos ha] at hp
      rcases List.mem_cons.mp hp with h | h
      · subst h; simp at hc
      · exact List.mem_cons_of_mem _ (ih part c h hc)
    · rw [if_neg ha] at hp
      rcases hsp : splitChars sep rest with _ | ⟨p0, ps⟩ <;> rw [hsp] at hp
      · rcases List.mem_cons.mp hp with h | h
        · subst h
          rcases List.mem_cons.mp hc with h1 | h1
          · exact h1 ▸ List.mem_cons_self _ _
          · simp at h1
        · simp at h
      · rcases List.mem_cons.mp hp with h | h
        · subst h
          rcases List.mem_cons.mp hc with h1 | h1
          · exact h1 ▸ List.mem_cons_self _ _
          · refine List.mem_cons_of_mem _ (ih p0 c ?_ h1)
            rw [hsp]; exact List.mem_cons_self _ _
        · refine List.mem_cons_of_mem _ (ih part c ?_ hc)
          rw [hsp]; exact List.mem_cons_of_mem _ h

/-- The cleanliness invariant of one query pair. -/
def QPairClean (p : Str × Str) : Prop :=
  '&' ∉ p.1 ∧ '=' ∉ p.1 ∧ '#' ∉ p.1 ∧ '&' ∉ p.2 ∧ '#' ∉ p.2

theorem spanUntil_snd_head (p : Char → Bool) :
    ∀ (l : Str) (e : Char) (w : Str), (spanUntil p l).2 = e :: w → p e = true := by
  intro l
  induction l with
  | nil => intro e w hm; simp [spanUntil] at hm
  | cons x xs ih =>
    intro e w hm
    by_cases hx : p x
    · rw [show spanUntil p (x :: xs) = ([], x :: xs) from by simp [spanUntil, hx]] at hm
      have hm2 : x :: xs = e :: w := hm
      injection hm2 with h1 _
      rw [← h1]
      exact hx
    · rw [spanUntil_cons_false p x xs (by simpa using hx)] at hm
      exact ih e w hm

theorem parseQSeg_clean (seg : Str) (k v : Str)
    (hs : parseQSeg seg = some (k, v)) (ha : '&' ∉ seg) (hh : '#' ∉ seg) :
    QPairClean (k, v) ∧ seg = k ++ '=' :: v := by
  unfold parseQSeg at hs
  rcases hsp : spanUntil (fun c => c = '=') seg with ⟨pre, rest⟩
  rw [hsp] at hs
  rcases rest with _ | ⟨e, w⟩
  · simp at hs
  · simp only [Option.some.injEq, Prod.mk.injEq] at hs
    obtain ⟨hk, hw⟩ := hs
    have he : e = '=' := by
      have := spanUntil_snd_head (fun c => c = '=') seg e w (by rw [hsp])
      simpa using this
    have hdec : pre ++ e :: w = seg := by
      have := spanUntil_decomp (fun c => c = '=') seg
      rw [hsp] at this
      exact this
    have hseg : seg = k ++ '=' :: v := by
      rw [← hdec, he, hk, hw]
    have hkin : ∀ c ∈ k, c ∈ seg := by
      intro c hc
      rw [hseg]
      exact List.mem_append_left _ hc
    have hvin : ∀ c ∈ v, c ∈ seg := by
      intro c hc
      rw [hseg]
      exact List.mem_append_right _ (List.mem_cons_of_mem _ hc)
    have hknoeq : '=' ∉ k := by
      rw [← hk]
      have := spanUntil_fst_not (fun c => c = '=') seg '=' (by simp)
      rw [hsp] at this
      exact this
    exact ⟨⟨fun h => ha (hkin _ h), hknoeq, fun h => hh (hkin _ h),
      fun h => ha (hvin _ h), fun h => hh (hvin _ h)⟩, hseg⟩

theorem parseQList_wf :
    ∀ (segs : List Str) (acc res : List (Str × Str)),
      parseQList segs acc = some res →
      (∀ p ∈ acc, QPairClean p) → (keysOf acc).Nodup →
      (∀ seg ∈ segs, '&' ∉ seg ∧ '#' ∉ seg) →
      (∀ p ∈ res, QPairClean p) ∧ (keysOf res).Nodup := by
  intro segs
  induction segs with
  | nil =>
    intro acc res hp hacc hnd _
    simp only [parseQList, Option.some.injEq] at hp
    subst hp
    exact ⟨hacc, hnd⟩
  | cons seg rest ih =>
    intro acc res hp hacc hnd hclean
    simp only [parseQList] at hp
    rcases hseg : parseQSeg seg with _ | ⟨k, v⟩
    · rw [hseg] at hp; simp at hp
    · rw [hseg] at hp
      have hsc := hclean seg (List.mem_cons_self _ _)
      obtain ⟨hq, _⟩ := parseQSeg_clean seg k v hseg hsc.1 hsc.2
      refine ih (dictInsert acc k v) res hp ?_ (nodup_dictInsert acc k v hnd)
        (fun s hs => hclean s (List.mem_cons_of_mem _ hs))
      intro p hpm
      rcases mem_dictInsert acc k v p hpm with h | h
      · exact hacc p h
      · rw [h]; exact hq

/-! ## Well-formedness of parsed URIs -/

theorem parseAuthority_wf (auth : Str) (ui : Option Str) (ip : Str) (port : Option Nat)
    (h : parseAuthority auth = some (ui, ip, port)) :
    isIPv4 ip = true ∧
    (ui = none ∨ ∃ uiv, ui = some uiv ∧ '@' ∉ uiv ∧ ∀ c ∈ uiv, c ∈ auth) := by
  unfold parseAuthority at h
  dsimp only at h
  have hmem := spanUntil_fst_mem (fun c => c = '@') auth
  have hnot := spanUntil_fst_not (fun c => c = '@') auth '@' (by simp)
  by_cases hat : (spanUntil (fun c => c = '@') auth).2 = [] <;>
    simp only [hat, if_pos, if_neg, if_true, if_false] at h <;>
      [have hui : (none : Option Str) = ui → ui = none ∨
          (∃ uiv, ui = some uiv ∧ '@' ∉ uiv ∧ ∀ c ∈ uiv, c ∈ auth) :=
          fun he => Or.inl he.symm;
       have hui : some (spanUntil (fun c => c = '@') auth).1 = ui → ui = none ∨
          (∃ uiv, ui = some uiv ∧ '@' ∉ uiv ∧ ∀ c ∈ uiv, c ∈ auth) :=
          fun he => Or.inr ⟨_, he.symm, hnot, hmem⟩] <;>
    · split at h
      case _ hin =>
        split at h
        case _ =>
          simp only [Option.some.injEq, Prod.mk.injEq] at h
          exact ⟨h.2.1 ▸ hin, hui h.1⟩
        case _ pc =>
          split at h
          case _ =>
            simp only [Option.some.injEq, Prod.mk.injEq] at h
            exact ⟨h.2.1 ▸ hin, hui h.1⟩
          case _ =>
            split at h
            case _ =>
              simp only [Option.some.injEq, Prod.mk.injEq] at h
              exact ⟨h.2.1 ▸ hin, hui h.1⟩
            case _ => simp at h
      case _ => simp at h


theorem parsePath_wf (r : Str) :
    ((parsePath r).1 = [] ∨ ∃ t, (parsePath r).1 = '/' :: t) ∧
    '?' ∉ (parsePath r).1 ∧ '#' ∉ (parsePath r).1 := by
  unfold parsePath
  by_cases hr : r.head? = some '/'
  · rw [if_pos hr]
    refine ⟨?_, ?_, ?_⟩
    · right
      rcases r with _ | ⟨c, t⟩
      · simp at hr
      · have hc : c = '/' := by simpa using hr
        subst hc
        rw [spanUntil_cons_false _ _ _ (by decide)]
        exact ⟨_, rfl⟩
    · exact spanUntil_fst_not _ _ '?' (by decide)
    · exact spanUntil_fst_not _ _ '#' (by decide)
  · rw [if_neg hr]
    exact ⟨Or.inl rfl, by simp, by simp⟩

theorem parseQF_fst (r : Str) :
    (parseQF r).1 = none ∨ ∃ l, (parseQF r).1 = some l ∧ '#' ∉ l := by
  unfold parseQF
  by_cases hq : r.head? = some '?'
  · rw [if_pos hq]
    exact Or.inr ⟨_, rfl, spanUntil_fst_not _ _ '#' (by decide)⟩
  · rw [if_neg hq]
    by_cases hh : r.head? = some '#'
    · rw [if_pos hh]; exact Or.inl rfl
    · rw [if_neg hh]; exact Or.inl rfl

theorem parseQuery_wf (qc : Option Str) (q : List (Str × Str))
    (h : parseQuery qc = some q)
    (hclean : qc = none ∨ ∃ l, qc = some l ∧ '#' ∉ l) :
    (∀ p ∈ q, QPairClean p) ∧ (keysOf q).Nodup := by
  rcases qc with _ | l
  · simp only [parseQuery, Option.some.injEq] at h
    subst h
    exact ⟨by simp, by simp [keysOf]⟩
  · simp only [parseQuery] at h
    by_cases hl : l = []
    · rw [if_pos hl] at h
      have := Option.some.inj h
      subst this
      exact ⟨by simp, by simp [keysOf]⟩
    · rw [if_neg hl] at h
      have hnh : '#' ∉ l := by
        rcases hclean with h1 | ⟨l2, hl2, hn⟩
        · simp at h1
        · rwa [Option.some.inj hl2]
      refine parseQList_wf _ [] q h (by simp) (by simp [keysOf]) ?_
      intro seg hseg
      refine ⟨splitChars_not_sep '&' l seg hseg, ?_⟩
      intro hmem
      exact hnh (splitChars_mem_subset '&' l seg '#' hseg hmem)

theorem parse_wf (s : Str) (u : Uri) (h : parseUri s = some u) : WFUri u := by
  unfold parseUri at h
  dsimp only at h
  split at h
  next htake =>
    split at h
    next x heq => exact absurd h (by simp)
    next x ui ip port heq =>
      split at h
      next y heq2 => exact absurd h (by simp)
      next y q heq2 =>
        have hu := Option.some.inj h
        subst hu
        obtain ⟨hipv4, huiw⟩ := parseAuthority_wf _ _ _ _ heq
        obtain ⟨hps, hpq, hph⟩ := parsePath_wf
          (spanUntil (fun c => c = '/' || c = '?' || c = '#')
            ((spanUntil (fun c => c = ':') s).2.drop 3)).2
        obtain ⟨hqc, hqnd⟩ := parseQuery_wf _ q heq2 (parseQF_fst _)
        refine ⟨⟨ip, rfl, hipv4⟩, rfl, ?_, ?_, hps, ⟨hpq, hph⟩, hqc, hqnd⟩
        · exact spanUntil_fst_not (fun c => c = ':') s ':' (by decide)
        · intro uiv he
          rcases huiw with h1 | ⟨uiv0, hui0, hnoat, hsub⟩
          · rw [h1] at he; cases he
          · rw [hui0] at he
            have : uiv0 = uiv := Option.some.inj he
            subst this
            have hstop := spanUntil_fst_false
              (fun c => c = '/' || c = '?' || c = '#')
              ((spanUntil (fun c => c = ':') s).2.drop 3)
            refine ⟨hnoat, ?_, ?_, ?_⟩
            · intro hm
              have := hstop '/' (hsub _ hm)
              simp at this
            · intro hm
              have := hstop '?' (hsub _ hm)
              simp at this
            · intro hm
              have := hstop '#' (hsub _ hm)
              simp at this
  next => exact absurd h (by simp)

/-! ## Render and re-parse lemmas for the URI round trip -/

theorem isIPv4_not_mem (a : Str) (h : isIPv4 a = true) (c : Char)
    (hd : c.isDigit = false) (hdot : c ≠ '.') : c ∉ a := by
  intro hm
  rcases isIPv4_chars a h c hm with h1 | h1
  · rw [hd] at h1; cases h1
  · exact hdot h1

theorem digits_not_mem (l : Str) (hall : ∀ c ∈ l, c.isDigit = true) (c : Char)
    (hd : c.isDigit = false) : c ∉ l := by
  intro hm
  have := hall c hm
  rw [hd] at this
  cases this

theorem renderQuery_not_mem (q : List (Str × Str)) (c : Char)
    (hc1 : c ≠ '=') (hc2 : c ≠ '&')
    (h : ∀ p ∈ q, c ∉ p.1 ∧ c ∉ p.2) : c ∉ renderQuery q := by
  induction q with
  | nil => simp [renderQuery]
  | cons p rest ih =>
    cases p with
    | mk k v =>
      have hp := h (k, v) (List.mem_cons_self _ _)
      rcases rest with _ | ⟨p2, rest2⟩
      · simp only [renderQuery]
        intro hm
        rcases List.mem_append.mp hm with h1 | h1
        · exact hp.1 h1
        · rcases List.mem_cons.mp h1 with h2 | h2
          · exact hc1 h2
          · exact hp.2 h2
      · simp only [renderQuery]
        intro hm
        rcases List.mem_append.mp hm with h1 | h1
        · rcases List.mem_append.mp h1 with h2 | h2
          · exact hp.1 h2
          · rcases List.mem_cons.mp h2 with h3 | h3
            · exact hc1 h3
            · exact hp.2 h3
        · rcases List.mem_cons.mp h1 with h2 | h2
          · exact hc2 h2
          · exact ih (fun p hpm => h p (List.mem_cons_of_mem _ hpm)) h2

theorem renderQuery_ne_nil (q : List (Str × Str)) (hq : q ≠ []) :
    renderQuery q ≠ [] := by
  rcases q with _ | ⟨⟨k, v⟩, rest⟩
  · exact absurd rfl hq
  · rcases rest with _ | ⟨p2, rest2⟩
    · simp [renderQuery]
    · simp [renderQuery]

theorem splitChars_renderQuery (q : List (Str × Str)) (hq : q ≠ [])
    (h : ∀ p ∈ q, '&' ∉ p.1 ∧ '&' ∉ p.2) :
    splitChars '&' (renderQuery q) = q.map segOf := by
  induction q with
  | nil => exact absurd rfl hq
  | cons p rest ih =>
    cases p with
    | mk k v =>
      have hp := h (k, v) (List.mem_cons_self _ _)
      have hseg : '&' ∉ segOf (k, v) := by
        intro hm
        unfold segOf at hm
        rcases List.mem_append.mp hm with h1 | h1
        · exact hp.1 h1
        · rcases List.mem_cons.mp h1 with h2 | h2
          · cases h2
          · exact hp.2 h2
      rcases rest with _ | ⟨p2, rest2⟩
      · rw [show renderQuery [(k, v)] = segOf (k, v) from rfl]
        rw [splitChars_no_sep '&' _ hseg]
        rfl
      · rw [show renderQuery ((k, v) :: p2 :: rest2) =
            segOf (k, v) ++ '&' :: renderQuery (p2 :: rest2) from rfl]
        rw [splitChars_append_cons '&' _ _ hseg]
        rw [ih (by simp) (fun p hpm => h p (List.mem_cons_of_mem _ hpm))]
        rfl

theorem parseQSeg_render (k v : Str) (hk : '=' ∉ k) :
    parseQSeg (segOf (k, v)) = some (k, v) := by
  unfold parseQSeg segOf
  rw [spanUntil_append (fun c => c = '=') k '=' v
    (fun c hc => decide_eq_false (fun he => hk (he ▸ hc))) (by simp)]

theorem parseQList_render :
    ∀ (pairs acc : List (Str × Str)),
      (keysOf acc ++ keysOf pairs).Nodup →
      (∀ p ∈ pairs, '=' ∉ p.1) →
      parseQList (pairs.map segOf) acc = some (acc ++ pairs) := by
  intro pairs
  induction pairs with
  | nil =>
    intro acc _ _
    simp [parseQList]
  | cons p rest ih =>
    intro acc hnd hcl
    cases p with
    | mk k v =>
      have hk : '=' ∉ k := hcl (k, v) (List.mem_cons_self _ _)
      simp only [List.map_cons, parseQList, parseQSeg_render k v hk]
      have hnd2 := List.nodup_append.mp hnd
      have hfresh : k ∉ keysOf acc := by
        intro hm
        exact hnd2.2.2 hm (by rw [keysOf_cons]; exact List.mem_cons_self _ _)
      rw [dictInsert_fresh acc k v hfresh]
      have hnd3 : (keysOf (acc ++ [(k, v)]) ++ keysOf rest).Nodup := by
        have : keysOf (acc ++ [(k, v)]) = keysOf acc ++ [k] := by
          unfold keysOf
          rw [List.map_append]
          rfl
        rw [this, List.append_assoc, List.singleton_append]
        rw [keysOf_cons] at hnd
        exact hnd
      rw [ih (acc ++ [(k, v)]) hnd3 (fun p hpm => hcl p (List.mem_cons_of_mem _ hpm))]
      rw [List.append_assoc, List.singleton_append]


theorem hostport_span (a : Str) (port : Option Nat) (hipv4 : isIPv4 a = true) :
    spanUntil (fun c => c = ':') (a ++ portRender port) =
      (a, portRender port) ∧
    (portRender port = [] ∨ ∃ t, portRender port = ':' :: t) := by
  have hnc : ∀ c ∈ a, (decide (c = ':')) = false := by
    intro c hc
    refine decide_eq_false ?_
    intro he
    exact isIPv4_not_mem a hipv4 ':' (by decide) (by decide) (he ▸ hc)
  rcases port with _ | p
  · rw [show portRender none = [] from rfl]
    exact ⟨by rw [List.append_nil]; exact spanUntil_all _ _ hnc, Or.inl rfl⟩
  · rw [show portRender (some p) = if p ≠ 0 then ':' :: natToChars p else [] from rfl]
    by_cases hp : p ≠ 0
    · rw [if_pos hp]
      exact ⟨spanUntil_append _ _ _ _ hnc (by simp), Or.inr ⟨_, rfl⟩⟩
    · rw [if_neg hp]
      exact ⟨by rw [List.append_nil]; exact spanUntil_all _ _ hnc, Or.inl rfl⟩

theorem parseAuthority_render (ui : Option Str) (a : Str) (port : Option Nat)
    (hipv4 : isIPv4 a = true) (hui_ne : ui ≠ some [])
    (hui_cl : ∀ uiv, ui = some uiv → '@' ∉ uiv)
    (hport : port ≠ some 0) :
    parseAuthority (uiRender ui ++ a ++ portRender port) = some (ui, a, port) := by
  obtain ⟨hsp2, hpr⟩ := hostport_span a port hipv4
  have hno_at_hp : ∀ c ∈ a ++ portRender port, (decide (c = '@')) = false := by
    intro c hc
    refine decide_eq_false ?_
    intro he
    subst he
    rcases List.mem_append.mp hc with h1 | h1
    · exact isIPv4_not_mem a hipv4 '@' (by decide) (by decide) h1
    · rcases hpr with h2 | ⟨t, h2⟩
      · rw [h2] at h1; simp at h1
      · rw [h2] at h1
        rcases List.mem_cons.mp h1 with h3 | h3
        · cases h3
        · rcases port with _ | p
          · simp [portRender] at h2
          · rw [show portRender (some p) =
                if p ≠ 0 then ':' :: natToChars p else [] from rfl] at h2
            by_cases hp : p ≠ 0
            · rw [if_pos hp] at h2
              have ht : t = natToChars p := ((List.cons.injEq .. ▸ h2).2).symm
              exact digits_not_mem _ (natToChars_all_digit p) '@' (by decide)
                (ht ▸ h3)
            · rw [if_neg hp] at h2; cases h2
  have hport_val : (match (if portRender port = [] then none
      else some (portRender port).tail : Option Str) with
      | none => some (ui, a, (none : Option Nat))
      | some pc =>
        if pc = [] then some (ui, a, none)
        else if pc.all Char.isDigit = true then some (ui, a, some (charsToNat pc))
        else none) = some (ui, a, port) := by
    rcases port with _ | p
    · rw [show portRender none = [] from rfl]
      simp
    · rw [show portRender (some p) =
          if p ≠ 0 then ':' :: natToChars p else [] from rfl]
      by_cases hp : p ≠ 0
      · rw [if_pos hp]
        rw [if_neg (by simp)]
        dsimp only [List.tail]
        rw [if_neg (natToChars_ne_nil p)]
        rw [if_pos (by
          rw [List.all_eq_true]
          intro c hc
          exact natToChars_all_digit p c hc)]
        rw [charsToNat_natToChars p]
      · exfalso
        apply hport
        have h0 : p = 0 := by omega
        rw [h0]
  rcases ui with _ | uiv
  · rw [show uiRender none = [] from rfl, List.nil_append]
    unfold parseAuthority
    dsimp only
    rw [spanUntil_all _ _ hno_at_hp]
    dsimp only
    rw [if_pos rfl, if_pos rfl]
    rw [hsp2]
    dsimp only
    rw [if_pos hipv4]
    exact hport_val
  · have huiv : uiv ≠ [] := fun he => hui_ne (he ▸ rfl)
    have hat := hui_cl uiv rfl
    rw [show uiRender (some uiv) = if uiv = [] then [] else uiv ++ ['@'] from rfl,
      if_neg huiv]
    unfold parseAuthority
    dsimp only
    rw [List.append_assoc, List.append_assoc, List.singleton_append]
    rw [show uiv ++ '@' :: (a ++ portRender port) =
      uiv ++ '@' :: (a ++ portRender port) from rfl]
    rw [spanUntil_append (fun c => c = '@') uiv '@' (a ++ portRender port)
      (fun c hc => decide_eq_false (fun he => hat (he ▸ hc))) (by simp)]
    dsimp only
    have hne : ('@' :: (a ++ portRender port) : Str) ≠ [] := by simp
    rw [if_neg hne, if_neg hne]
    dsimp only [List.tail]
    rw [hsp2]
    dsimp only
    rw [if_pos hipv4]
    exact hport_val


theorem parsePath_render (path rest : Str) (hp : ∃ t, path = '/' :: t)
    (hq : '?' ∉ path) (hh : '#' ∉ path)
    (hrest : rest = [] ∨ ∃ c t, rest = c :: t ∧ (c = '?' ∨ c = '#')) :
    parsePath (path ++ rest) = (path, rest) := by
  obtain ⟨t, hpath⟩ := hp
  have hclean : ∀ c ∈ path, (decide (c = '?') || decide (c = '#')) = false := by
    intro c hc
    have h1 : c ≠ '?' := fun he => hq (he ▸ hc)
    have h2 : c ≠ '#' := fun he => hh (he ▸ hc)
    simp [h1, h2]
  have hspan : spanUntil (fun c => c = '?' || c = '#') (path ++ rest) = (path, rest) := by
    rcases hrest with h1 | ⟨c, t2, h1, h2⟩
    · rw [h1, List.append_nil]
      exact spanUntil_all _ _ hclean
    · rw [h1]
      refine spanUntil_append _ _ _ _ hclean ?_
      rcases h2 with h3 | h3 <;> simp [h3]
  unfold parsePath
  rw [show (path ++ rest).head? = some '/' from by rw [hpath]; rfl]
  rw [if_pos rfl]
  exact hspan

theorem parseQF_render (q : List (Str × Str)) (f : Option Str)
    (hqcl : ∀ p ∈ q, '#' ∉ p.1 ∧ '#' ∉ p.2) (hf : f ≠ some []) :
    parseQF (queryRender q ++ fragRender f) =
      ((if q = [] then none else some (renderQuery q)), f) := by
  have hfrag : fragRender f = [] ∧ f = none ∨
      ∃ fv, f = some fv ∧ fv ≠ [] ∧ fragRender f = '#' :: fv := by
    rcases f with _ | fv
    · exact Or.inl ⟨rfl, rfl⟩
    · have hfv : fv ≠ [] := fun he => hf (he ▸ rfl)
      refine Or.inr ⟨fv, rfl, hfv, ?_⟩
      rw [show fragRender (some fv) = if fv = [] then [] else '#' :: fv from rfl,
        if_neg hfv]
  by_cases hq : q = []
  · rw [if_pos hq]
    rw [show queryRender q = [] from by rw [hq]; rfl, List.nil_append]
    rcases hfrag with ⟨hfr, hfn⟩ | ⟨fv, hfv, hne, hfr⟩
    · rw [hfr, hfn]
      rfl
    · rw [hfr, hfv]
      unfold parseQF
      rw [show (('#' :: fv : Str)).head? = some '#' from rfl]
      rw [if_neg (by simp), if_pos rfl]
      rfl
  · rw [if_neg hq]
    rw [show queryRender q = '?' :: renderQuery q from by
      unfold queryRender; rw [if_neg hq]]
    have hnh : '#' ∉ renderQuery q :=
      renderQuery_not_mem q '#' (by decide) (by decide) hqcl
    have hnhf : ∀ c ∈ renderQuery q, (decide (c = '#')) = false :=
      fun c hc => decide_eq_false (fun he => hnh (he ▸ hc))
    unfold parseQF
    rw [List.cons_append]
    rw [if_pos (show List.head? ('?' :: (renderQuery q ++ fragRender f)) = some '?' from rfl)]
    dsimp only [List.tail]
    rcases hfrag with ⟨hfr, hfn⟩ | ⟨fv, hfv, hne, hfr⟩
    · rw [hfr, List.append_nil, hfn]
      rw [spanUntil_all _ _ hnhf]
      rfl
    · rw [hfr, hfv]
      rw [spanUntil_append _ _ _ _ hnhf (by simp)]
      dsimp only
      rw [show (('#' :: fv : Str)).head? = some '#' from rfl]
      rw [if_pos rfl]

theorem parseQuery_render (q : List (Str × Str))
    (hcl : ∀ p ∈ q, QPairClean p) (hnd : (keysOf q).Nodup) :
    parseQuery (if q = [] then none else some (renderQuery q)) = some q := by
  by_cases hq : q = []
  · rw [if_pos hq, hq]
    rfl
  · rw [if_neg hq]
    unfold parseQuery
    dsimp only
    rw [if_neg (renderQuery_ne_nil q hq)]
    rw [splitChars_renderQuery q hq (fun p hp => ⟨(hcl p hp).1, (hcl p hp).2.2.2.1⟩)]
    have := parseQList_render q [] (by simpa [keysOf] using hnd)
      (fun p hp => (hcl p hp).2.1)
    rw [this]
    rfl


theorem parseUri_render (scheme a : Str) (port : Option Nat) (ui : Option Str)
    (path : Str) (q : List (Str × Str)) (f : Option Str)
    (hscheme : ':' ∉ scheme)
    (hipv4 : isIPv4 a = true)
    (hui_ne : ui ≠ some [])
    (hui_cl : ∀ uiv, ui = some uiv →
      '@' ∉ uiv ∧ '/' ∉ uiv ∧ '?' ∉ uiv ∧ '#' ∉ uiv)
    (hport : port ≠ some 0)
    (hpt : ∃ t, path = '/' :: t) (hpq : '?' ∉ path) (hph : '#' ∉ path)
    (hqcl : ∀ p ∈ q, QPairClean p) (hqnd : (keysOf q).Nodup)
    (hf : f ≠ some []) :
    parseUri (scheme ++ ':' :: '/' :: '/' ::
      (uiRender ui ++ a ++ portRender port ++ path ++ queryRender q ++
       fragRender f)) =
      some ⟨scheme, some a, port, none, ui, path, q, f⟩ := by
  obtain ⟨pt, hptv⟩ := hpt
  have hrest : queryRender q ++ fragRender f = [] ∨
      ∃ c t, queryRender q ++ fragRender f = c :: t ∧ (c = '?' ∨ c = '#') := by
    by_cases hq : q = []
    · rw [show queryRender q = [] from by rw [hq]; rfl, List.nil_append]
      rcases hfv : f with _ | fv
      · exact Or.inl rfl
      · have hne : fv ≠ [] := fun he => hf (hfv ▸ he ▸ rfl)
        rw [show fragRender (some fv) =
          if fv = [] then [] else '#' :: fv from rfl, if_neg hne]
        exact Or.inr ⟨'#', fv, rfl, Or.inr rfl⟩
    · rw [show queryRender q = '?' :: renderQuery q from by
        unfold queryRender; rw [if_neg hq], List.cons_append]
      exact Or.inr ⟨'?', _, rfl, Or.inl rfl⟩
  unfold parseUri
  dsimp only
  rw [spanUntil_append (fun c => c = ':') scheme ':'
    ('/' :: '/' :: (uiRender ui ++ a ++ portRender port ++ path ++
      queryRender q ++ fragRender f))
    (fun c hc => decide_eq_false (fun he => hscheme (he ▸ hc))) (by simp)]
  dsimp only
  rw [if_pos (show List.take 3 (':' :: '/' :: '/' ::
    (uiRender ui ++ a ++ portRender port ++ path ++ queryRender q ++
     fragRender f)) = [':', '/', '/'] from rfl)]
  rw [show List.drop 3 (':' :: '/' :: '/' ::
    (uiRender ui ++ a ++ portRender port ++ path ++ queryRender q ++
     fragRender f)) =
    uiRender ui ++ a ++ portRender port ++ path ++ queryRender q ++
     fragRender f from rfl]
  rw [show uiRender ui ++ a ++ portRender port ++ path ++ queryRender q ++
      fragRender f =
      (uiRender ui ++ a ++ portRender port) ++
      (path ++ queryRender q ++ fragRender f) from by
    simp [List.append_assoc]]
  have hAclean : ∀ c ∈ uiRender ui ++ a ++ portRender port,
      (decide (c = '/') || decide (c = '?') || decide (c = '#')) = false := by
    intro c hc
    have hcn : c ≠ '/' ∧ c ≠ '?' ∧ c ≠ '#' := by
      rcases List.mem_append.mp hc with h1 | h1
      · rcases List.mem_append.mp h1 with h2 | h2
        · rcases hui2 : ui with _ | uiv
          · rw [hui2] at h2; simp [uiRender] at h2
          · rw [hui2] at h2
            have huiv : uiv ≠ [] := fun he => hui_ne (hui2 ▸ he ▸ rfl)
            rw [show uiRender (some uiv) =
              if uiv = [] then [] else uiv ++ ['@'] from rfl, if_neg huiv] at h2
            rcases List.mem_append.mp h2 with h3 | h3
            · obtain ⟨_, hs, hq2, hh2⟩ := hui_cl uiv hui2
              exact ⟨fun he => hs (he ▸ h3), fun he => hq2 (he ▸ h3),
                fun he => hh2 (he ▸ h3)⟩
            · rcases List.mem_cons.mp h3 with h4 | h4
              · exact ⟨by rw [h4]; decide, by rw [h4]; decide, by rw [h4]; decide⟩
              · simp at h4
        · refine ⟨?_, ?_, ?_⟩ <;> intro he <;>
            exact isIPv4_not_mem a hipv4 c (by rw [he]; decide)
              (by rw [he]; decide) h2
      · rcases hpv : port with _ | p
        · rw [hpv] at h1; simp [portRender] at h1
        · rw [hpv] at h1
          have hp0 : p ≠ 0 := fun he => hport (hpv ▸ he ▸ rfl)
          rw [show portRender (some p) =
            if p ≠ 0 then ':' :: natToChars p else [] from rfl, if_pos hp0] at h1
          rcases List.mem_cons.mp h1 with h4 | h4
          · exact ⟨by rw [h4]; decide, by rw [h4]; decide, by rw [h4]; decide⟩
          · refine ⟨?_, ?_, ?_⟩ <;> intro he <;>
              exact digits_not_mem _ (natToChars_all_digit p) c
                (by rw [he]; decide) h4
    simp [hcn.1, hcn.2.1, hcn.2.2]
  rw [show path ++ queryRender q ++ fragRender f =
    '/' :: (pt ++ (queryRender q ++ fragRender f)) from by
    rw [hptv]; simp [List.append_assoc]]
  rw [spanUntil_append _ _ _ _ hAclean (by simp)]
  dsimp only
  rw [parseAuthority_render ui a port hipv4 hui_ne
    (fun uiv he => (hui_cl uiv he).1) hport]
  dsimp only
  rw [show ('/' :: (pt ++ (queryRender q ++ fragRender f)) : Str) =
    path ++ (queryRender q ++ fragRender f) from by rw [hptv]; rfl]
  rw [parsePath_render path (queryRender q ++ fragRender f)
    ⟨pt, hptv⟩ hpq hph hrest]
  dsimp only
  rw [parseQF_render q f
    (fun p hp => ⟨(hqcl p hp).2.2.1, (hqcl p hp).2.2.2.2⟩) hf]
  dsimp only
  rw [parseQuery_render q hqcl hqnd]

theorem render_parses (u : Uri) (hwf : WFUri u)
    (hpath : u.path ≠ []) (hport : u.port ≠ some 0)
    (hui : u.userinfo ≠ some []) (hfrag : u.fragment ≠ some []) :
    ∃ r, uriStr u = .ok r ∧ parseUri r = some u := by
  obtain ⟨a, hip, hipv4⟩ := hwf.ip_ipv4
  have hane : a ≠ [] := isIPv4_ne_nil a hipv4
  have hhost : pyHostname u = .ok a := by
    unfold pyHostname
    rw [hip]
    dsimp only
    rw [if_neg (by simpa [List.isEmpty_iff] using hane)]
  have hr : pathRender u.path = u.path := by
    unfold pathRender
    rw [if_neg hpath]
  have hstr : uriStr u = .ok (u.scheme ++ ':' :: '/' :: '/' ::
      (uiRender u.userinfo ++ a ++ portRender u.port ++ u.path ++
       queryRender u.query ++ fragRender u.fragment)) := by
    unfold uriStr
    rw [hhost, hr]
    rfl
  refine ⟨_, hstr, ?_⟩
  have hps : ∃ t, u.path = '/' :: t := by
    rcases hwf.path_shape with h | h
    · exact absurd h hpath
    · exact h
  have := parseUri_render u.scheme a u.port u.userinfo u.path u.query u.fragment
    hwf.scheme_ok hipv4 hui hwf.ui_ok hport hps
    hwf.path_clean.1 hwf.path_clean.2 hwf.query_clean hwf.query_nodup hfrag
  rw [this]
  rw [← hip, ← hwf.host_none]



/-! ## Claim theorems -/

/-- C1: counter-evidence for the claimed Max-Age/Expires precedence.  The
claim says a Set-Cookie value with an accepted Max-Age always yields a
Cookie whose expiry_time is the Max-Age-derived timestamp; in fact
SetCookieParser6265.validate stores the derived datetime under Max-Age
while Cookie6265.__init__ compares that value with 0 - an int-only
comparison, as the direct construction in the repository test
test_expiry_time shows (second conjunct) - so the end-to-end parse raises
TypeError and produces no Cookie at all (first conjunct). -/
theorem maxAge_pipeline_typeError :
    setCookieParse "a=b; Max-Age=20".data exUri = .error .typeError ∧
    (cookieInit "a".data "b".data exUri [("Max-Age".data, AttrVal.int 20)]).map
      (fun c => (c.persistent_flag, c.expiry_time)) =
      .ok (true, .dt (.nowPlus 20)) := by
  constructor
  · decide
  · decide

/-- C2: the path-match predicate disagrees with the claimed boundary rule.
On request path /label1/label2 and cookie path /label the source
path_matches returns True (it tests request_path[0] instead of the
character following the prefix), while the claim - and the predicate
built from the words of the spec - says false. -/
theorem path_matches_boundary_bug :
    path_matches "/label1/label2".data "/label".data = .ok true ∧
    pathMatchesSpec "/label1/label2".data "/label".data = false := by
  constructor
  · decide
  · decide

/-- C3: counter-evidence for the claimed Max-Age normalizer contract.
The value "-5" is a signed integer, which the claim says is accepted with
an expiry of now; validate drops it (its first-character test accepts
only a digit or "="), and an empty Max-Age value makes validate raise
IndexError instead of dropping the attribute and continuing. -/
theorem maxAge_normalizer_divergence :
    isSignedIntStr "-5".data = true ∧
    validate [("Max-Age".data, "-5".data)] exUri = .ok [] ∧
    validate [("Max-Age".data, [])] exUri = .error .indexError := by
  refine ⟨by decide, by decide, by decide⟩

/-- C4: counter-evidence for the claimed default-path computation.  For
the URI path /label1/label2 the claim (and the rule built from the words
of the spec, second conjunct) gives /label1, but the source default_path
only strips a trailing slash and returns the whole path /label1/label2. -/
theorem default_path_keeps_last_segment :
    default_path (withPath "/label1/label2".data) = .ok "/label1/label2".data ∧
    defaultPathSpec "/label1/label2".data = "/label1".data := by
  constructor
  · decide
  · decide

/-- C5: counter-evidence for the claimed domain validation.  The request
host www.youtube.com domain-matches the supplied Domain youtube.com under
the claimed suffix-or-equality rule (second conjunct), so the claim says
construction succeeds with host_only_flag false; the source checks the
domain with path_matches, which fails here, so Cookie6265 raises
ValueError and no cookie is produced. -/
theorem domain_check_rejects_subdomain :
    cookieInit "k".data "v".data wwwYtUri
      [("Domain".data, AttrVal.s "youtube.com".data)] = .error .valueError ∧
    domainMatchSpec "www.youtube.com".data "youtube.com".data = true := by
  constructor
  · decide
  · decide

/-- C6: counter-evidence for the claimed typed tokenizer failures.  A
header value without "=" before the first ";" makes parse return None -
a silently absent result, not a typed failure - and a header with an
empty cookie name executes raise None, which in Python is an untyped
TypeError, not the claimed typed parse or validation failure. -/
theorem tokenizer_failures_not_typed :
    setCookieParse "justname".data exUri = .ok none ∧
    setCookieParse "=value".data exUri = .error .typeError := by
  constructor
  · decide
  · decide

/-- C7 counterexample: the claim says the date interpreter returns a
timestamp or an absent result and never propagates an exception; on an
unparsable input DateParser6265.parse raises ParseException - an
exception reaches the caller and no absent result exists. -/
theorem dateParse_raises_not_null :
    dateParse "not a date".data = .error .parseException := by decide

/-- C7 amended: for every input string the date interpreter either
returns a timestamp or raises the typed ParseException; no other
exception and no absent result ever reaches the caller. -/
theorem dateParse_ok_or_parseException (s : Str) :
    (∃ d, dateParse s = .ok d) ∨ dateParse s = .error .parseException := by
  unfold dateParse
  cases treeParse (dateTokens s) with
  | ok d => exact Or.inl ⟨d, rfl⟩
  | error e => exact Or.inr rfl

/-- C8 counterexample: the date Tue, 31-Feb-2023 13:20:04 GMT fills all
four slots and passes every range check of the claim (first conjunct),
yet parsing fails, because the Python datetime constructor does
cross-validate the day of month against the month - Feb 31 is rejected,
contrary to the claimed permissiveness. -/
theorem feb31_claim_accepts_code_rejects :
    dateAcceptClaim (dateTokens "Tue, 31-Feb-2023 13:20:04 GMT".data) = true ∧
    dateParse "Tue, 31-Feb-2023 13:20:04 GMT".data = .error .parseException := by
  constructor
  · decide
  · decide

/-- C8 amended: for every date string, parsing succeeds exactly when all
four slots were filled, the range checks hold (day in [1,31], normalized
year at least 1601, hour at most 23, minute and second at most 59), and
additionally the day of month exists in the resolved month and year (the
check the datetime constructor performs). -/
theorem dateParse_ok_iff_amended (s : Str) :
    (∃ d, dateParse s = .ok d) ↔ dateAcceptAmended (dateTokens s) = true := by
  rw [← treeParse_ok_iff]
  unfold dateParse
  cases treeParse (dateTokens s) with
  | ok d => simp
  | error e => simp

/-- C10: default_path is partial.  For every non-empty URI path with at
least two "/" and only empty segments before its last "/", default_path
raises AssertionError, and parsing the attribute-free cookie k=v against
a request URI with that path aborts with the same AssertionError instead
of producing a cookie. -/
theorem default_path_assert_aborts_parse (p : Str) (h1 : p ≠ [])
    (h2 : 2 ≤ p.count '/')
    (h3 : ∀ seg ∈ (splitChars '/' p).dropLast, seg = []) :
    default_path (withPath p) = .error .assertionError ∧
    setCookieParse "k=v".data (withPath p) = .error .assertionError := by
  have hdp : default_path (withPath p) = .error .assertionError := by
    unfold default_path
    rw [show (withPath p).path = p from rfl]
    rw [if_neg (by simpa [List.isEmpty_iff] using h1)]
    rw [if_neg (by omega)]
    rw [if_pos (by rw [joinAll_eq_nil _ h3]; rfl)]
  refine ⟨hdp, ?_⟩
  rw [setCookieParse_kv_eq, cookieInit_withPath, hdp]
  rfl

/-- C10 witness: the concrete path // satisfies the hypotheses and the
parse aborts with AssertionError. -/
theorem default_path_assert_aborts_parse_witness :
    ("//".data ≠ ([] : Str)) ∧ 2 ≤ "//".data.count '/' ∧
    (∀ seg ∈ (splitChars '/' "//".data).dropLast, seg = ([] : Str)) ∧
    (default_path (withPath "//".data) = .error .assertionError ∧
     setCookieParse "k=v".data (withPath "//".data) = .error .assertionError) :=
  ⟨by decide, by decide, by decide,
   default_path_assert_aborts_parse "//".data (by decide) (by decide) (by decide)⟩

/-- C9 counterexample: the valid IPv4-authority URI http://1.2.3.4 parses
to a Uri with an empty path, renders with the path defaulted to "/", and
re-parses to a Uri with path "/", which Uri3986.__eq__ distinguishes from
the original - so parse(str(parse(s))) differs from parse(s). -/
theorem roundtrip_fails_empty_path :
    roundTrips "http://1.2.3.4".data = false := by decide

/-- C9 amended: for every IPv4-authority URI string whose parse has a
non-empty path and whose optional components are not Python-falsy (port
not 0, userinfo and fragment not empty when present), rendering the
parsed Uri and re-parsing gives a Uri equal to the original under
Uri3986.__eq__. -/
theorem parse_render_roundtrip (s : Str) (u : Uri) (hp : parseUri s = some u)
    (h1 : u.path ≠ []) (h2 : u.port ≠ some 0) (h3 : u.userinfo ≠ some [])
    (h4 : u.fragment ≠ some []) : roundTrips s = true := by
  have hwf := parse_wf s u hp
  obtain ⟨r, hstr, hparse⟩ := render_parses u hwf h1 h2 h3 h4
  unfold roundTrips
  rw [hp]
  dsimp only
  rw [hstr]
  dsimp only
  rw [hparse]
  dsimp only
  exact uriEq_refl u hwf.query_nodup

/-- C9 witness: a concrete URI with every component present satisfies the
hypotheses and round-trips. -/
theorem parse_render_roundtrip_witness :
    parseUri "https://u@1.2.3.4:1010/path?name=test#fr".data =
      some { scheme := "https".data, ip := some "1.2.3.4".data,
             port := some 1010, host := none, userinfo := some "u".data,
             path := "/path".data, query := [("name".data, "test".data)],
             fragment := some "fr".data } ∧
    roundTrips "https://u@1.2.3.4:1010/path?name=test#fr".data = true := by
  constructor
  · decide
  · exact parse_render_roundtrip _
      { scheme := "https".data, ip := some "1.2.3.4".data,
        port := some 1010, host := none, userinfo := some "u".data,
        path := "/path".data, query := [("name".data, "test".data)],
        fragment := some "fr".data }
      (by decide) (by decide) (by decide) (by decide) (by decide)


end RfcParser
